import Mathlib

/-!
Shallow embedding of the tab-lifecycle core of `examples/tabs/src/app.rs`
(the `TabManager` registry and the `Tab` session handle).

Modelling conventions:
* `BTreeMap<u64, Tab>` is modelled as an association list `List (Nat × Tab)`
  whose keys are kept sorted strictly ascending (the `KeysSorted` predicate is
  the `BTreeMap` type invariant); iteration order of the Rust map is the list
  order.
* Rust panics (`unwrap` on `None`, `expect` on a missing environment variable)
  are modelled by returning `none` from an `Option`-valued function.
* The external terminal backend (`TerminalBackend::new`) is a black box: it is
  passed in as a function `String → Except String Nat` from the shell command
  to either an error or an opaque backend token, and the `SHELL` environment
  variable is passed in as an `Option String`.  The `egui` context and the
  event sender do not influence registry state and are omitted.
-/

namespace EguiTermTabs

/-- Embeds the Rust `Tab` struct: a terminal backend handle plus a display
title.  The backend is opaque, represented by a `Nat` token. -/
structure Tab where
  backend : Nat
  title : String
  deriving Repr, DecidableEq

/-- Embeds `Tab::set_title`: replaces the display title. -/
def Tab.set_title (t : Tab) (title : String) : Tab :=
  { t with title := title }

/-- Embeds `Tab::new`.  The Rust code reads the `SHELL` environment variable
with `.expect(..)` (panic when absent, modelled by `none`) and constructs the
terminal backend with `TerminalBackend::new(..).unwrap()` (panic when the
backend constructor errors, modelled by `none`). -/
def Tab.new (shellVar : Option String) (backendNew : String → Except String Nat)
    (id : Nat) : Option Tab :=
  match shellVar with
  | none => none
  | some shell =>
    match backendNew shell with
    | Except.error _ => none
    | Except.ok b => some { backend := b, title := "tab: " ++ toString id }

/-- Keys of an association list, in list (= map iteration) order. -/
def keysOf (l : List (Nat × Tab)) : List Nat :=
  l.map Prod.fst

/-- `BTreeMap::insert` on the sorted association list: places the new binding
at its ordered position, replacing an existing binding with the same key. -/
def btInsert : List (Nat × Tab) → Nat → Tab → List (Nat × Tab)
  | [], k, v => [(k, v)]
  | (k', v') :: rest, k, v =>
    if k < k' then (k, v) :: (k', v') :: rest
    else if k = k' then (k, v) :: rest
    else (k', v') :: btInsert rest k v

/-- `BTreeMap::remove`: returns the list without the binding for `id`
together with the removed value (`none` when `id` was not a key). -/
def btRemove : List (Nat × Tab) → Nat → List (Nat × Tab) × Option Tab
  | [], _ => ([], none)
  | (k, v) :: rest, id =>
    if k = id then (rest, some v)
    else
      let r := btRemove rest id
      ((k, v) :: r.1, r.2)

/-- `BTreeMap::get`: the value bound to `id`, if any. -/
def btGet : List (Nat × Tab) → Nat → Option Tab
  | [], _ => none
  | (k, v) :: rest, id => if k = id then some v else btGet rest id

/-- `BTreeMap::get_mut` followed by an in-place update: applies `f` to the
value bound to `id`, leaving the list unchanged when `id` is not a key. -/
def btModify : List (Nat × Tab) → Nat → (Tab → Tab) → List (Nat × Tab)
  | [], _, _ => []
  | (k, v) :: rest, id, f =>
    if k = id then (k, f v) :: rest else (k, v) :: btModify rest id f

/-- Embeds the iterator chain `.iter().skip_while(|t| t.0 <= &id).next()` of
`TabManager::remove`: skips the leading bindings whose key is `≤ id` and
returns the key of the next one. -/
def firstKeyGreater : List (Nat × Tab) → Nat → Option Nat
  | [], _ => none
  | (k, _) :: rest, id => if k ≤ id then firstKeyGreater rest id else some k

/-- Embeds `BTreeMap::last_key_value` (restricted to the key): the key of the
last binding in iteration order, i.e. the largest key of a sorted map. -/
def lastKey : List (Nat × Tab) → Option Nat
  | [] => none
  | [(k, _)] => some k
  | _ :: rest => lastKey rest

/-- The `BTreeMap` type invariant of the embedding: keys strictly ascending
in list order. -/
def KeysSorted (l : List (Nat × Tab)) : Prop :=
  List.Pairwise (fun a b => a.1 < b.1) l

instance (l : List (Nat × Tab)) : Decidable (KeysSorted l) := by
  unfold KeysSorted; infer_instance

/-- Embeds the Rust `TabManager` struct. -/
structure TabManager where
  active_tab_id : Option Nat
  tabs : List (Nat × Tab)
  deriving Repr, DecidableEq

/-- Embeds `TabManager::new`. -/
def TabManager.new : TabManager :=
  { active_tab_id := none, tabs := [] }

/-- Embeds `TabManager::add`: allocates `id = tabs.len()`, builds the tab with
`Tab::new` (whose panics propagate, modelled by `none`), inserts it and makes
it active. -/
def TabManager.add (m : TabManager) (shellVar : Option String)
    (backendNew : String → Except String Nat) : Option TabManager :=
  let id := m.tabs.length
  match Tab.new shellVar backendNew id with
  | none => none
  | some tab =>
    some { active_tab_id := some id, tabs := btInsert m.tabs id tab }

/-- Embeds `TabManager::remove`: early-returns on an empty map, otherwise
removes the binding with `.unwrap()` (panic, i.e. `none`, when `id` is not a
key) and recomputes the active id as the first key greater than `id` in the
remaining map, else the last key, else nothing. -/
def TabManager.remove (m : TabManager) (id : Nat) : Option TabManager :=
  if m.tabs.length = 0 then some m
  else
    match btRemove m.tabs id with
    | (_, none) => none
    | (tabs', some _) =>
      let newActive :=
        match firstKeyGreater tabs' id with
        | some k => some k
        | none => lastKey tabs'
      some { active_tab_id := newActive, tabs := tabs' }

/-- Embeds `TabManager::clear`: empties the tab map.  Note the Rust code does
not touch `active_tab_id`. -/
def TabManager.clear (m : TabManager) : TabManager :=
  { m with tabs := [] }

/-- Embeds `TabManager::set_title`: updates the title if `id` is a key,
otherwise does nothing. -/
def TabManager.set_title (m : TabManager) (id : Nat) (title : String) :
    TabManager :=
  { m with tabs := btModify m.tabs id (fun t => t.set_title title) }

/-- Embeds `TabManager::get_title`. -/
def TabManager.get_title (m : TabManager) (id : Nat) : Option String :=
  match btGet m.tabs id with
  | some tab => some tab.title
  | none => none

/-- Embeds `TabManager::get_active`: `none` when no active id is set or the
active id is not a key, otherwise the tab bound to the active id. -/
def TabManager.get_active (m : TabManager) : Option Tab :=
  match m.active_tab_id with
  | none => none
  | some id =>
    match btGet m.tabs id with
    | some tab => some tab
    | none => none

/-- Embeds `TabManager::get_tab_ids`. -/
def TabManager.get_tab_ids (m : TabManager) : List Nat :=
  keysOf m.tabs

/-- Embeds `TabManager::set_active`: early-returns when `id > tabs.len()`
(a count-based bound check), otherwise sets the active id unconditionally. -/
def TabManager.set_active (m : TabManager) (id : Nat) : TabManager :=
  if m.tabs.length < id then m
  else { m with active_tab_id := some id }

/-- A backend constructor that always succeeds, used to drive the registry
through concrete scenarios. -/
def okBackendNew : String → Except String Nat :=
  fun _ => Except.ok 0

/-- A backend constructor that always fails, exercising the error path of
`Tab::new`. -/
def errBackendNew : String → Except String Nat :=
  fun _ => Except.error "backend failed"

/-- A resolvable `SHELL` environment variable. -/
def shellOk : Option String :=
  some "/bin/sh"

/-- The tab that a successful `Tab::new` with `okBackendNew` builds for a
given id. -/
def mkTab (id : Nat) : Tab :=
  { backend := 0, title := "tab: " ++ toString id }

/-- The registry after one `add` from fresh. -/
def mOne : TabManager :=
  { active_tab_id := some 0, tabs := [(0, mkTab 0)] }

/-- The registry after two `add` calls from fresh. -/
def mTwo : TabManager :=
  { active_tab_id := some 1, tabs := [(0, mkTab 0), (1, mkTab 1)] }

/-- The registry after two `add` calls and then `remove 0`. -/
def mTwoR : TabManager :=
  { active_tab_id := some 1, tabs := [(1, mkTab 1)] }

/-- The registry with tabs `{0, 1, 2}` and active tab `1`, as in the removal
scenario (three `add` calls followed by `set_active 1`). -/
def mThree : TabManager :=
  { active_tab_id := some 1,
    tabs := [(0, mkTab 0), (1, mkTab 1), (2, mkTab 2)] }

/-- States reachable from a fresh registry by non-panicking `add` and
`remove` calls (a `remove` that would panic has no successor state). -/
inductive Reachable : TabManager → Prop
  | base : Reachable TabManager.new
  | add {m m' : TabManager} {sv : Option String}
      {bn : String → Except String Nat} :
      Reachable m → m.add sv bn = some m' → Reachable m'
  | remove {m m' : TabManager} {id : Nat} :
      Reachable m → m.remove id = some m' → Reachable m'

/-- States reachable from a fresh registry by `add` calls alone. -/
inductive ReachableAddOnly : TabManager → Prop
  | base : ReachableAddOnly TabManager.new
  | add {m m' : TabManager} {sv : Option String}
      {bn : String → Except String Nat} :
      ReachableAddOnly m → m.add sv bn = some m' → ReachableAddOnly m'

theorem btInsert_ne_nil (l : List (Nat × Tab)) (k : Nat) (v : Tab) :
    btInsert l k v ≠ [] := by
  cases l with
  | nil => simp [btInsert]
  | cons a rest =>
    obtain ⟨k', v'⟩ := a
    simp only [btInsert]
    split
    · simp
    · split <;> simp

theorem mem_keys_btInsert (l : List (Nat × Tab)) (k : Nat) (v : Tab) :
    k ∈ keysOf (btInsert l k v) := by
  induction l with
  | nil => simp [btInsert, keysOf]
  | cons a rest ih =>
    obtain ⟨k', v'⟩ := a
    simp only [btInsert]
    split
    · simp [keysOf]
    · split
      · simp [keysOf]
      · simpa [keysOf] using Or.inr ih

theorem firstKeyGreater_mem {l : List (Nat × Tab)} {id k : Nat}
    (h : firstKeyGreater l id = some k) : k ∈ keysOf l := by
  induction l with
  | nil => simp [firstKeyGreater] at h
  | cons a rest ih =>
    obtain ⟨k', v'⟩ := a
    simp only [firstKeyGreater] at h
    split at h
    · simpa [keysOf] using Or.inr (ih h)
    · simp only [Option.some.injEq] at h
      simp [keysOf, h]

theorem firstKeyGreater_none {l : List (Nat × Tab)} {id : Nat}
    (h : firstKeyGreater l id = none) : ∀ j ∈ keysOf l, j ≤ id := by
  induction l with
  | nil => simp [keysOf]
  | cons a rest ih =>
    obtain ⟨k', v'⟩ := a
    simp only [firstKeyGreater] at h
    split at h
    · intro j hj
      rcases (by simpa [keysOf] using hj) with rfl | hj'
      · assumption
      · exact ih h j (by simpa [keysOf] using hj')
    · exact absurd h (by simp)

theorem lastKey_mem {l : List (Nat × Tab)} {k : Nat}
    (h : lastKey l = some k) : k ∈ keysOf l := by
  induction l with
  | nil => simp [lastKey] at h
  | cons a rest ih =>
    cases rest with
    | nil =>
      obtain ⟨k', v'⟩ := a
      simp only [lastKey, Option.some.injEq] at h
      simp [keysOf, h]
    | cons b rest' =>
      have : lastKey (b :: rest') = some k := h
      simpa [keysOf] using Or.inr (ih this)

theorem lastKey_eq_none_iff {l : List (Nat × Tab)} :
    lastKey l = none ↔ l = [] := by
  induction l with
  | nil => simp [lastKey]
  | cons a rest ih =>
    cases rest with
    | nil => obtain ⟨k', v'⟩ := a; simp [lastKey]
    | cons b rest' =>
      constructor
      · intro h
        exact absurd (ih.mp h) (by simp)
      · intro h; simp at h


theorem add_some_iff {m m' : TabManager} {sv : Option String}
    {bn : String → Except String Nat} :
    m.add sv bn = some m' ↔
      ∃ tab, Tab.new sv bn m.tabs.length = some tab ∧
        m' = { active_tab_id := some m.tabs.length,
               tabs := btInsert m.tabs m.tabs.length tab } := by
  unfold TabManager.add
  cases h : Tab.new sv bn m.tabs.length <;> simp [h, eq_comm]

theorem remove_some_of_empty {m : TabManager} {id : Nat} (h : m.tabs = []) :
    m.remove id = some m := by
  unfold TabManager.remove
  simp [h]

theorem remove_some_iff_nonempty {m m' : TabManager} {id : Nat}
    (hne : m.tabs ≠ []) :
    m.remove id = some m' ↔
      ∃ t, (btRemove m.tabs id).2 = some t ∧
        m' = { active_tab_id :=
                 match firstKeyGreater (btRemove m.tabs id).1 id with
                 | some k => some k
                 | none => lastKey (btRemove m.tabs id).1,
               tabs := (btRemove m.tabs id).1 } := by
  unfold TabManager.remove
  have hlen : m.tabs.length ≠ 0 := by simpa using hne
  rw [if_neg hlen]
  cases hbr : btRemove m.tabs id with
  | mk tabs' ot =>
    cases ot with
    | none => simp
    | some t => simp [eq_comm]

/-- C1: after every sequence of non-panicking `add`/`remove` calls from a
fresh registry, the active tab id is `none` exactly when the registry is
empty, and when present it is a key of the tab map. -/
theorem reachable_active_valid (m : TabManager) (h : Reachable m) :
    (m.active_tab_id = none ↔ m.tabs = []) ∧
      (∀ id, m.active_tab_id = some id → id ∈ keysOf m.tabs) := by
  induction h with
  | base => simp [TabManager.new, keysOf]
  | add hr hadd ih =>
    rename_i m m' sv bn
    obtain ⟨tab, -, rfl⟩ := add_some_iff.mp hadd
    refine ⟨by simp [btInsert_ne_nil], ?_⟩
    intro id hid
    simp only [Option.some.injEq] at hid
    subst hid
    exact mem_keys_btInsert _ _ _
  | remove hr hrem ih =>
    rename_i m m' id
    by_cases hne : m.tabs = []
    · rw [remove_some_of_empty hne] at hrem
      cases hrem
      exact ih
    · obtain ⟨t, -, rfl⟩ := (remove_some_iff_nonempty hne).mp hrem
      constructor
      · cases hfkg : firstKeyGreater (btRemove m.tabs id).1 id with
        | some k =>
          simp only [hfkg]
          constructor
          · intro h'; simp at h'
          · intro h'
            have := firstKeyGreater_mem hfkg
            rw [h'] at this
            simp [keysOf] at this
        | none =>
          simp only [hfkg]
          constructor
          · intro h'
            exact lastKey_eq_none_iff.mp h'
          · intro h'
            exact lastKey_eq_none_iff.mpr h'
      · intro j hj
        cases hfkg : firstKeyGreater (btRemove m.tabs id).1 id with
        | some k =>
          simp only [hfkg, Option.some.injEq] at hj
          subst hj
          exact firstKeyGreater_mem hfkg
        | none =>
          simp only [hfkg] at hj
          exact lastKey_mem hj



theorem mem_keysOf {l : List (Nat × Tab)} {j : Nat} :
    j ∈ keysOf l ↔ ∃ v, (j, v) ∈ l := by
  unfold keysOf
  constructor
  · intro h
    obtain ⟨⟨a, b⟩, hm, rfl⟩ := List.mem_map.mp h
    exact ⟨b, hm⟩
  · rintro ⟨v, hm⟩
    exact List.mem_map.mpr ⟨(j, v), hm, rfl⟩

theorem mem_keysOf_cons {a : Nat × Tab} {l : List (Nat × Tab)} {j : Nat} :
    j ∈ keysOf (a :: l) ↔ j = a.1 ∨ j ∈ keysOf l := by
  simp [keysOf]

theorem step_add_one : TabManager.new.add shellOk okBackendNew = some mOne := by
  rfl

theorem step_add_two : mOne.add shellOk okBackendNew = some mTwo := by
  rfl

theorem step_remove_zero : mTwo.remove 0 = some mTwoR := by
  rfl

theorem reachable_mOne : Reachable mOne :=
  Reachable.add Reachable.base step_add_one

theorem reachable_mTwo : Reachable mTwo :=
  Reachable.add reachable_mOne step_add_two

theorem reachable_mTwoR : Reachable mTwoR :=
  Reachable.remove reachable_mTwo step_remove_zero

theorem addOnly_mTwo : ReachableAddOnly mTwo :=
  ReachableAddOnly.add (ReachableAddOnly.add ReachableAddOnly.base step_add_one)
    step_add_two

theorem btRemove_fst_sublist (l : List (Nat × Tab)) (id : Nat) :
    (btRemove l id).1.Sublist l := by
  induction l with
  | nil => simp [btRemove]
  | cons a rest ih =>
    obtain ⟨k, v⟩ := a
    simp only [btRemove]
    split
    · exact List.sublist_cons_self _ _
    · exact ih.cons₂ _

theorem keysSorted_btRemove {l : List (Nat × Tab)} (id : Nat)
    (h : KeysSorted l) : KeysSorted (btRemove l id).1 :=
  h.sublist (btRemove_fst_sublist l id)

theorem keys_btRemove {l : List (Nat × Tab)} {id : Nat} (h : KeysSorted l) :
    keysOf (btRemove l id).1 = (keysOf l).filter (fun k => k ≠ id) := by
  induction l with
  | nil => simp [btRemove, keysOf]
  | cons a rest ih =>
    obtain ⟨k, v⟩ := a
    obtain ⟨hhead, htail⟩ := List.pairwise_cons.mp h
    simp only [btRemove]
    split
    · rename_i hk
      subst hk
      simp only [keysOf, List.map_cons, List.filter_cons]
      rw [if_neg (by simp)]
      symm
      rw [List.filter_eq_self]
      intro j hj
      obtain ⟨v', hmem⟩ := mem_keysOf.mp hj
      have : k < j := hhead _ hmem
      simp only [ne_eq, decide_eq_true_eq]
      omega
    · rename_i hk
      simp only [keysOf, List.map_cons, List.filter_cons]
      rw [if_pos (by simpa using hk)]
      simpa [keysOf] using ih htail

theorem btRemove_snd_none_iff {l : List (Nat × Tab)} {id : Nat} :
    (btRemove l id).2 = none ↔ id ∉ keysOf l := by
  induction l with
  | nil => simp [btRemove, keysOf]
  | cons a rest ih =>
    obtain ⟨k, v⟩ := a
    simp only [btRemove]
    split
    · rename_i hk
      subst hk
      simp [keysOf]
    · rename_i hk
      simp only [keysOf, List.map_cons, List.mem_cons]
      rw [ih]
      constructor
      · rintro hnot (rfl | hmem)
        · exact hk rfl
        · exact hnot hmem
      · intro hnot hmem
        exact hnot (Or.inr hmem)

theorem btRemove_snd_some {l : List (Nat × Tab)} {id : Nat}
    (h : id ∈ keysOf l) : ∃ t, (btRemove l id).2 = some t := by
  cases hb : (btRemove l id).2 with
  | none => exact absurd h (btRemove_snd_none_iff.mp hb)
  | some t => exact ⟨t, rfl⟩

theorem firstKeyGreater_least {l : List (Nat × Tab)} {id k : Nat}
    (hs : KeysSorted l) (h : firstKeyGreater l id = some k) :
    id < k ∧ ∀ j ∈ keysOf l, id < j → k ≤ j := by
  induction l with
  | nil => simp [firstKeyGreater] at h
  | cons a rest ih =>
    obtain ⟨k', v'⟩ := a
    obtain ⟨hhead, htail⟩ := List.pairwise_cons.mp hs
    simp only [firstKeyGreater] at h
    split at h
    · rename_i hle
      obtain ⟨h1, h2⟩ := ih htail h
      refine ⟨h1, ?_⟩
      intro j hj hidj
      rcases mem_keysOf_cons.mp hj with rfl | hj'
      · omega
      · exact h2 j hj' hidj
    · rename_i hgt
      simp only [Option.some.injEq] at h
      subst h
      refine ⟨by omega, ?_⟩
      intro j hj hidj
      rcases mem_keysOf_cons.mp hj with rfl | hj'
      · exact le_refl _
      · obtain ⟨j2, hmem⟩ := mem_keysOf.mp hj'
        exact le_of_lt (hhead _ hmem)

theorem lastKey_greatest {l : List (Nat × Tab)} {k : Nat}
    (hs : KeysSorted l) (h : lastKey l = some k) :
    ∀ j ∈ keysOf l, j ≤ k := by
  induction l with
  | nil => simp [keysOf]
  | cons a rest ih =>
    obtain ⟨hhead, htail⟩ := List.pairwise_cons.mp hs
    cases rest with
    | nil =>
      obtain ⟨k', v'⟩ := a
      simp only [lastKey, Option.some.injEq] at h
      subst h
      simp [keysOf]
    | cons b rest' =>
      have hlast : lastKey (b :: rest') = some k := h
      intro j hj
      rcases mem_keysOf_cons.mp hj with rfl | hj'
      · have hk : k ∈ keysOf (b :: rest') := lastKey_mem hlast
        obtain ⟨k2, hmem⟩ := mem_keysOf.mp hk
        exact le_of_lt (hhead _ hmem)
      · exact ih htail hlast j hj'



/-- C1 witness: the invariant at the concrete registry reached by `add`,
`add`, `remove 0`. -/
theorem reachable_active_valid_witness :
    (mTwoR.active_tab_id = none ↔ mTwoR.tabs = []) ∧
      (∀ id, mTwoR.active_tab_id = some id → id ∈ keysOf mTwoR.tabs) :=
  reachable_active_valid mTwoR reachable_mTwoR

/-- C4: removing a present id from a (sorted, hence well-formed) registry
deletes exactly that binding and recomputes the active id as the smallest
remaining key strictly greater than the removed id when one exists, else the
largest remaining key, else `none`; and concretely, on tabs `{0, 1, 2}` with
active `1`, removing `1`, then `2`, then `0` makes the active id `2`, then
`0`, then `none` with an empty registry. -/
theorem remove_recomputes_active :
    (∀ (m : TabManager) (id : Nat), KeysSorted m.tabs → id ∈ keysOf m.tabs →
      ∃ m', m.remove id = some m' ∧
        keysOf m'.tabs = (keysOf m.tabs).filter (fun k => k ≠ id) ∧
        (∀ k, m'.active_tab_id = some k →
          k ∈ keysOf m'.tabs ∧
          ((id < k ∧ ∀ j ∈ keysOf m'.tabs, id < j → k ≤ j) ∨
           ((∀ j ∈ keysOf m'.tabs, j ≤ id) ∧ ∀ j ∈ keysOf m'.tabs, j ≤ k))) ∧
        (m'.active_tab_id = none ↔ m'.tabs = [])) ∧
    (∃ a b c : TabManager,
      mThree.remove 1 = some a ∧ a.active_tab_id = some 2 ∧
      a.remove 2 = some b ∧ b.active_tab_id = some 0 ∧
      b.remove 0 = some c ∧ c.active_tab_id = none ∧ c.tabs = []) := by
  constructor
  · intro m id hs hmem
    have hne : m.tabs ≠ [] := by
      intro h0
      rw [h0] at hmem
      simp [keysOf] at hmem
    obtain ⟨t, ht⟩ := btRemove_snd_some hmem
    have hs' : KeysSorted (btRemove m.tabs id).1 := keysSorted_btRemove id hs
    refine ⟨_, (remove_some_iff_nonempty hne).mpr ⟨t, ht, rfl⟩,
      keys_btRemove hs, ?_, ?_⟩
    · intro k hk
      cases hf : firstKeyGreater (btRemove m.tabs id).1 id with
      | some k0 =>
        simp only [hf, Option.some.injEq] at hk
        subst hk
        exact ⟨firstKeyGreater_mem hf, Or.inl (firstKeyGreater_least hs' hf)⟩
      | none =>
        simp only [hf] at hk
        exact ⟨lastKey_mem hk,
          Or.inr ⟨firstKeyGreater_none hf, lastKey_greatest hs' hk⟩⟩
    · cases hf : firstKeyGreater (btRemove m.tabs id).1 id with
      | some k0 =>
        simp only [hf]
        constructor
        · intro h'; simp at h'
        · intro h'
          have := firstKeyGreater_mem hf
          rw [h'] at this
          simp [keysOf] at this
      | none =>
        simp only [hf]
        exact lastKey_eq_none_iff
  · exact ⟨_, _, _, rfl, rfl, rfl, rfl, rfl, rfl, rfl⟩

/-- C4 witness: the policy applied to the concrete registry with tabs
`{0, 1, 2}` and the removed id `1`. -/
theorem remove_recomputes_active_witness :
    KeysSorted mThree.tabs ∧ 1 ∈ keysOf mThree.tabs ∧
      (∃ m', mThree.remove 1 = some m' ∧
        keysOf m'.tabs = (keysOf mThree.tabs).filter (fun k => k ≠ 1) ∧
        (∀ k, m'.active_tab_id = some k →
          k ∈ keysOf m'.tabs ∧
          ((1 < k ∧ ∀ j ∈ keysOf m'.tabs, 1 < j → k ≤ j) ∨
           ((∀ j ∈ keysOf m'.tabs, j ≤ 1) ∧ ∀ j ∈ keysOf m'.tabs, j ≤ k))) ∧
        (m'.active_tab_id = none ↔ m'.tabs = [])) :=
  ⟨by decide, by decide, remove_recomputes_active.1 mThree 1 (by decide) (by decide)⟩

/-- C2 amended: `clear` empties the tab map and leaves the `active_tab_id`
field untouched (it is not reset to `none`); the stale active id is however
never dereferenced, since `get_active` on the cleared registry is `none`. -/
theorem clear_empties_tabs (m : TabManager) :
    m.clear.tabs = [] ∧ m.clear.active_tab_id = m.active_tab_id ∧
      m.clear.get_active = none := by
  refine ⟨rfl, rfl, ?_⟩
  unfold TabManager.get_active TabManager.clear
  cases m.active_tab_id <;> simp [btGet]

/-- C2 counterexample: on the reachable one-tab registry the Rust `clear`
only empties the map; the active tab id stays `some 0` instead of becoming
`none` as claimed. -/
theorem clear_keeps_active_cex :
    Reachable mOne ∧ mOne.clear.tabs = [] ∧
      mOne.clear.active_tab_id = some 0 :=
  ⟨reachable_mOne, rfl, rfl⟩

/-- C3: removing an id that is absent from a non-empty registry panics
(`tabs.remove(&id).unwrap()` on `None`, modelled by the `none` result): at
the reachable one-tab registry, `remove 5` is the panic value, even though
removing from the empty registry is a genuine no-op. -/
theorem remove_absent_id_panics :
    Reachable mOne ∧ mOne.tabs ≠ [] ∧ 5 ∉ keysOf mOne.tabs ∧
      mOne.remove 5 = none ∧
      TabManager.new.remove 5 = some TabManager.new :=
  ⟨reachable_mOne, by decide, by decide, rfl, rfl⟩



theorem btGet_btInsert_self (l : List (Nat × Tab)) (k : Nat) (v : Tab) :
    btGet (btInsert l k v) k = some v := by
  induction l with
  | nil => simp [btInsert, btGet]
  | cons a rest ih =>
    obtain ⟨k', v'⟩ := a
    simp only [btInsert]
    split
    · simp [btGet]
    · split
      · simp [btGet]
      · rename_i h1 h2
        simp only [btGet]
        rw [if_neg (by omega)]
        exact ih

theorem btGet_none_iff {l : List (Nat × Tab)} {id : Nat} :
    btGet l id = none ↔ id ∉ keysOf l := by
  induction l with
  | nil => simp [btGet, keysOf]
  | cons a rest ih =>
    obtain ⟨k, v⟩ := a
    simp only [btGet]
    split
    · rename_i h
      subst h
      simp [mem_keysOf_cons]
    · rename_i h
      rw [ih, mem_keysOf_cons]
      simp only [not_or]
      constructor
      · intro hn
        exact ⟨fun he => h he.symm, hn⟩
      · intro hn
        exact hn.2

theorem btGet_some_of_mem {l : List (Nat × Tab)} {id : Nat}
    (h : id ∈ keysOf l) : ∃ t, btGet l id = some t := by
  cases hb : btGet l id with
  | none => exact absurd h (btGet_none_iff.mp hb)
  | some t => exact ⟨t, rfl⟩

theorem btGet_btModify_self (l : List (Nat × Tab)) (id : Nat) (f : Tab → Tab) :
    btGet (btModify l id f) id = (btGet l id).map f := by
  induction l with
  | nil => simp [btModify, btGet]
  | cons a rest ih =>
    obtain ⟨k, v⟩ := a
    simp only [btModify]
    split
    · rename_i h
      simp [btGet, h]
    · rename_i h
      simp only [btGet]
      rw [if_neg h, if_neg h]
      exact ih

theorem btModify_absent {l : List (Nat × Tab)} {id : Nat} (f : Tab → Tab)
    (h : id ∉ keysOf l) : btModify l id f = l := by
  induction l with
  | nil => rfl
  | cons a rest ih =>
    obtain ⟨k, v⟩ := a
    have h1 : ¬ k = id := by
      intro hk
      exact h (mem_keysOf_cons.mpr (Or.inl hk.symm))
    have h2 : id ∉ keysOf rest := fun hm => h (mem_keysOf_cons.mpr (Or.inr hm))
    simp only [btModify]
    rw [if_neg h1, ih h2]

theorem keys_btInsert_append (l : List (Nat × Tab)) (k : Nat) (v : Tab)
    (h : ∀ j ∈ keysOf l, j < k) :
    keysOf (btInsert l k v) = keysOf l ++ [k] := by
  induction l with
  | nil => simp [btInsert, keysOf]
  | cons a rest ih =>
    obtain ⟨k', v'⟩ := a
    have hk' : k' < k := h k' (mem_keysOf_cons.mpr (Or.inl rfl))
    simp only [btInsert]
    rw [if_neg (by omega), if_neg (by omega)]
    have : keysOf (btInsert rest k v) = keysOf rest ++ [k] :=
      ih fun j hj => h j (mem_keysOf_cons.mpr (Or.inr hj))
    simp only [keysOf, List.map_cons] at this ⊢
    rw [this, List.cons_append]

theorem addOnly_keys_range (m : TabManager) (h : ReachableAddOnly m) :
    keysOf m.tabs = List.range m.tabs.length := by
  induction h with
  | base => simp [TabManager.new, keysOf]
  | add hr hadd ih =>
    rename_i m m' sv bn
    obtain ⟨tab, -, rfl⟩ := add_some_iff.mp hadd
    show keysOf (btInsert m.tabs m.tabs.length tab) =
      List.range (btInsert m.tabs m.tabs.length tab).length
    have hlt : ∀ j ∈ keysOf m.tabs, j < m.tabs.length := by
      intro j hj
      rw [ih] at hj
      exact List.mem_range.mp hj
    have hkeys := keys_btInsert_append m.tabs m.tabs.length tab hlt
    have hlen : (btInsert m.tabs m.tabs.length tab).length =
        m.tabs.length + 1 := by
      have h1 := congrArg List.length hkeys
      simpa [keysOf] using h1
    rw [hkeys, ih, hlen, List.range_succ]

/-- C5: a successful `add` makes the new id the old entry count, stores the
freshly built tab under that id and makes it active; concretely, three `add`
calls on a fresh registry allocate ids `0`, `1`, `2` in order with active
ending at `2`. -/
theorem add_assigns_count :
    (∀ (m m' : TabManager) (sv : Option String)
        (bn : String → Except String Nat),
      m.add sv bn = some m' →
        m'.active_tab_id = some m.tabs.length ∧
        ∃ tab, Tab.new sv bn m.tabs.length = some tab ∧
          btGet m'.tabs m.tabs.length = some tab) ∧
    (∃ a b c : TabManager,
      TabManager.new.add shellOk okBackendNew = some a ∧
      a.active_tab_id = some 0 ∧
      a.add shellOk okBackendNew = some b ∧ b.active_tab_id = some 1 ∧
      b.add shellOk okBackendNew = some c ∧ c.active_tab_id = some 2 ∧
      keysOf c.tabs = [0, 1, 2]) := by
  constructor
  · intro m m' sv bn h
    obtain ⟨tab, htab, rfl⟩ := add_some_iff.mp h
    exact ⟨rfl, tab, htab, btGet_btInsert_self _ _ _⟩
  · exact ⟨_, _, _, rfl, rfl, rfl, rfl, rfl, rfl, rfl⟩

/-- C5 witness: the first `add` on a fresh registry. -/
theorem add_assigns_count_witness :
    TabManager.new.add shellOk okBackendNew = some mOne ∧
      (mOne.active_tab_id = some TabManager.new.tabs.length ∧
        ∃ tab, Tab.new shellOk okBackendNew TabManager.new.tabs.length =
            some tab ∧
          btGet mOne.tabs TabManager.new.tabs.length = some tab) :=
  ⟨by rfl,
    add_assigns_count.1 TabManager.new mOne shellOk okBackendNew (by rfl)⟩

/-- C6 amended: while no removal has occurred the key set is exactly
`{0, .., len-1}`, so the id that `add` assigns (`tabs.len()`) is fresh. -/
theorem add_id_fresh_without_removes (m : TabManager)
    (h : ReachableAddOnly m) : m.tabs.length ∉ keysOf m.tabs := by
  rw [addOnly_keys_range m h]
  simp

/-- C6 witness: the two-tab registry built by two `add` calls. -/
theorem add_id_fresh_without_removes_witness :
    mTwo.tabs.length ∉ keysOf mTwo.tabs :=
  add_id_fresh_without_removes mTwo addOnly_mTwo

/-- C6 counterexample: after `add`, `add`, `remove 0` the registry is
reachable and its single live key is `1`, which is exactly `tabs.len()`; the
next `add` therefore assigns a live id, and it overwrites that tab's handle:
a title set beforehand is lost in the result. -/
theorem add_id_collision_cex :
    Reachable mTwoR ∧ mTwoR.tabs.length ∈ keysOf mTwoR.tabs ∧
      keysOf mTwoR.tabs = [1] ∧
      (mTwoR.set_title 1 "X").get_title 1 = some "X" ∧
      (∃ m4, (mTwoR.set_title 1 "X").add shellOk okBackendNew = some m4 ∧
        keysOf m4.tabs = [1] ∧ m4.get_title 1 = some "tab: 1") :=
  ⟨reachable_mTwoR, by decide, rfl, rfl, ⟨_, rfl, rfl, rfl⟩⟩

/-- C7 amended: `set_active id` updates the active id exactly when
`id ≤ tabs.len()` (a non-strict, count-based bound, not an existence check)
and leaves the registry unchanged otherwise; within the bound it can set an
active id that is not a live key. -/
theorem set_active_count_bound (m : TabManager) (id : Nat) :
    (id ≤ m.tabs.length →
      (m.set_active id).active_tab_id = some id ∧
        (m.set_active id).tabs = m.tabs) ∧
    (m.tabs.length < id → m.set_active id = m) := by
  unfold TabManager.set_active
  constructor
  · intro h
    rw [if_neg (by omega)]
    exact ⟨rfl, rfl⟩
  · intro h
    rw [if_pos h]

/-- C7 witness: on the sparse one-tab registry with live key `1`,
`set_active 0` is within the count bound and sets an active id that is not a
key. -/
theorem set_active_count_bound_witness :
    0 ≤ mTwoR.tabs.length ∧
      ((mTwoR.set_active 0).active_tab_id = some 0 ∧
        (mTwoR.set_active 0).tabs = mTwoR.tabs) ∧
      0 ∉ keysOf mTwoR.tabs :=
  ⟨by decide, (set_active_count_bound mTwoR 0).1 (by decide), by decide⟩

/-- C7 counterexample: on the empty registry `0 < tabs.len()` fails, yet
`set_active 0` does change the registry, making `0` active. -/
theorem set_active_strict_bound_cex :
    ¬ 0 < TabManager.new.tabs.length ∧
      (TabManager.new.set_active 0).active_tab_id = some 0 ∧
      TabManager.new.active_tab_id = none :=
  ⟨by decide, rfl, rfl⟩

/-- C8 amended: when the SHELL variable is unresolvable or the backend
constructor returns an error, `Tab::new` panics (`expect` / `unwrap`) and the
panic propagates through `TabManager::add` (the `none` result): the tab is
not added because the process crashes, not because a failure is reported. -/
theorem add_panics_on_backend_failure (m : TabManager)
    (bn : String → Except String Nat) :
    m.add none bn = none ∧
      ∀ sh e, bn sh = Except.error e → m.add (some sh) bn = none := by
  constructor
  · rfl
  · intro sh e h
    unfold TabManager.add Tab.new
    simp [h]

/-- C8 witness: `add` at the one-tab registry with a missing SHELL variable,
and with a backend constructor that errors. -/
theorem add_panics_on_backend_failure_witness :
    mOne.add none errBackendNew = none ∧
      (errBackendNew "/bin/sh" = Except.error "backend failed" ∧
        mOne.add (some "/bin/sh") errBackendNew = none) :=
  ⟨(add_panics_on_backend_failure mOne errBackendNew).1,
    rfl,
    (add_panics_on_backend_failure mOne errBackendNew).2 "/bin/sh"
      "backend failed" rfl⟩

/-- C8 counterexample: tab creation failure is claimed to be reported without
crashing and to leave the registry unchanged; instead `add` evaluates to the
panic value both when SHELL is missing and when the backend errors. -/
theorem add_no_crash_cex :
    TabManager.new.add none okBackendNew = none ∧
      mOne.add shellOk errBackendNew = none :=
  ⟨rfl, rfl⟩

/-- C9: if `id` is a live key then `set_title id t` followed by
`get_title id` returns `t`; if `id` is absent, `set_title` leaves the
registry unchanged with no error and `get_title id` is `none`. -/
theorem set_title_get_title_roundtrip (m : TabManager) (id : Nat)
    (t : String) :
    (id ∈ keysOf m.tabs → (m.set_title id t).get_title id = some t) ∧
    (id ∉ keysOf m.tabs → m.set_title id t = m ∧ m.get_title id = none) := by
  constructor
  · intro hmem
    obtain ⟨tab, htab⟩ := btGet_some_of_mem hmem
    show (match btGet (btModify m.tabs id fun tb => tb.set_title t) id with
      | some tb => some tb.title
      | none => none) = some t
    rw [btGet_btModify_self, htab]
    rfl
  · intro hmem
    refine ⟨?_, ?_⟩
    · show { m with tabs := btModify m.tabs id fun tb => tb.set_title t } = m
      rw [btModify_absent _ hmem]
    · show (match btGet m.tabs id with
        | some tb => some tb.title
        | none => none) = none
      rw [btGet_none_iff.mpr hmem]

/-- C9 witness: the round trip on the one-tab registry at the live key `0`
and, at the absent key `7`, the unchanged registry. -/
theorem set_title_get_title_roundtrip_witness :
    (0 ∈ keysOf mOne.tabs ∧
      (mOne.set_title 0 "X").get_title 0 = some "X") ∧
    (7 ∉ keysOf mOne.tabs ∧
      mOne.set_title 7 "X" = mOne ∧ mOne.get_title 7 = none) :=
  ⟨⟨by decide, (set_title_get_title_roundtrip mOne 0 "X").1 (by decide)⟩,
    ⟨by decide, (set_title_get_title_roundtrip mOne 7 "X").2 (by decide)⟩⟩

/-- C10: `get_active` never panics: it is `none` when no active id is set,
`none` when the active id is not a live key, and the stored handle when the
active id is a live key. -/
theorem get_active_never_panics (m : TabManager) :
    (m.active_tab_id = none → m.get_active = none) ∧
    (∀ id, m.active_tab_id = some id → id ∉ keysOf m.tabs →
      m.get_active = none) ∧
    (∀ id tab, m.active_tab_id = some id → btGet m.tabs id = some tab →
      m.get_active = some tab) := by
  unfold TabManager.get_active
  cases hact : m.active_tab_id with
  | none =>
    exact ⟨fun _ => rfl, fun id h => absurd h (by simp),
      fun id tab h _ => absurd h (by simp)⟩
  | some j =>
    refine ⟨fun h => absurd h (by simp), ?_, ?_⟩
    · intro id h hmem
      have hj : j = id := by simpa using h
      subst hj
      simp [btGet_none_iff.mpr hmem]
    · intro id tab h htab
      have hj : j = id := by simpa using h
      subst hj
      simp [htab]

/-- C10 witness: the three cases at concrete registries: fresh (no active
id), cleared (dangling active id `0`), and one-tab (live active id `0`). -/
theorem get_active_never_panics_witness :
    TabManager.new.get_active = none ∧
      (mOne.clear.active_tab_id = some 0 ∧ 0 ∉ keysOf mOne.clear.tabs ∧
        mOne.clear.get_active = none) ∧
      (mOne.active_tab_id = some 0 ∧ btGet mOne.tabs 0 = some (mkTab 0) ∧
        mOne.get_active = some (mkTab 0)) :=
  ⟨(get_active_never_panics TabManager.new).1 rfl,
    ⟨rfl, by decide, (get_active_never_panics mOne.clear).2.1 0 rfl (by decide)⟩,
    ⟨rfl, rfl, (get_active_never_panics mOne).2.2 0 (mkTab 0) rfl rfl⟩⟩


end EguiTermTabs
